import Mathlib

/-!
# Verification of the `wheelbuf` multi-read ring buffer

Shallow embedding of `src/lib.rs`: the `WheelBuf` structure with its
`push` operation, the drain iterator's `next`, the forward iterator's
`next` and `nth`, and the `Write::write_str` adapter for `char` buffers.

The backing store `C : AsMut<[I]> + AsRef<[I]>` is modelled as a
`List α`; the capacity is its length, fixed because `List.set` preserves
length.  Machine integers (`usize`) are modelled as `Nat`: the indices
`head`, `tail`, `len` are bounded by the capacity in every reachable
state, far below any overflow.  A Rust panic (slice index out of range)
is modelled by `Option`: `push` returns `none` exactly when the slice
write `data[head]` would be out of bounds (which also covers the
modulo-by-zero case, since `head < capacity` forces `capacity > 0`).
Inside the iterators the element reads use `List.getElem?`; under the
buffer invariant these reads are always in range, and every theorem
about them carries that invariant.
-/

namespace Wheelbuf

/-- The `WheelBuf<C, I>` struct: backing store `data`, insert position
`head`, oldest-element position `tail`, and occupancy `len`. -/
structure WheelBuf (α : Type) where
  data : List α
  head : Nat
  tail : Nat
  len : Nat
deriving Repr, DecidableEq

variable {α : Type}

/-- `WheelBuf::new`: indices initialized to 0. -/
def WheelBuf.new (data : List α) : WheelBuf α :=
  { data := data, head := 0, tail := 0, len := 0 }

/-- `WheelBuf::capacity`: the length of the backing store. -/
def WheelBuf.capacity (b : WheelBuf α) : Nat :=
  b.data.length

/-- `WheelBuf::push`: writes `item` at `data[head]` (a panic — modelled
as `none` — if `head` is out of range), advances `tail` circularly when
the buffer was full (`tail == head && len > 0`), advances `head`
circularly, and increments `len` while it is below capacity. -/
def WheelBuf.push (b : WheelBuf α) (item : α) : Option (WheelBuf α) :=
  if b.head < b.capacity then
    some { data := b.data.set b.head item
           tail := if b.tail = b.head ∧ 0 < b.len then (b.tail + 1) % b.capacity else b.tail
           head := (b.head + 1) % b.capacity
           len := if b.len < b.capacity then b.len + 1 else b.len }
  else
    none

/-- `WheelBufDrain::next`: when `len > 0`, yields the element at
`buffer[tail]`, advances `tail` circularly and decrements `len`;
when `len == 0`, resets `head` and `tail` to 0 and yields nothing.
The drain struct holds the slice and mutable borrows of the three
indices, so it is modelled as a state transformer on the buffer.
The element read uses `getElem?`; in Rust an out-of-range `tail`
would panic, and every theorem below assumes the invariant under
which the read is in range. -/
def WheelBufDrain.next (b : WheelBuf α) : Option α × WheelBuf α :=
  if 0 < b.len then
    (b.data[b.tail]?,
     { b with tail := (b.tail + 1) % b.data.length, len := b.len - 1 })
  else
    (none, { b with head := 0, tail := 0 })

/-- `WheelBufIter::next`: the iterator over a `WheelBuf` is its cursor
`cur` (the buffer reference is immutable while the iterator lives, so
it is passed as a parameter).  Yields `data[(tail + cur) % capacity]`
and increments `cur`, or ends once `cur >= len`. -/
def WheelBufIter.next (b : WheelBuf α) (cur : Nat) : Option α × Nat :=
  if cur ≥ b.len then
    (none, cur)
  else
    (b.data[(b.tail + cur) % b.capacity]?, cur + 1)

/-- `WheelBufIter::nth`: advances `cur` by `min n len` when `n > 0`,
then performs one `next`. -/
def WheelBufIter.nth (b : WheelBuf α) (cur : Nat) (n : Nat) : Option α × Nat :=
  WheelBufIter.next b (if 0 < n then cur + min n b.len else cur)

/-- The `for c in s.chars` loop of `Write::write_str for WheelBuf<C, char>`:
pushes every character of `s` in order and returns `Ok(())`; `none`
models a panic inside `push`. -/
def writeStr (b : WheelBuf Char) : List Char → Option (Except Unit Unit × WheelBuf Char)
  | [] => some (Except.ok (), b)
  | c :: cs =>
    match b.push c with
    | some b' => writeStr b' cs
    | none => none

/-! ## Derived executions

Sequences of operations, defined by iterating the single-step
operations above. -/

/-- Push a whole list of items, one by one in order, propagating a panic. -/
def pushAll : WheelBuf α → List α → Option (WheelBuf α)
  | b, [] => some b
  | b, a :: xs =>
    match b.push a with
    | some b' => pushAll b' xs
    | none => none

/-- Call `WheelBufDrain.next` up to `fuel` times, collecting the yielded
elements, stopping (like a `for` loop over the iterator) at the first
`none`. -/
def drainRun : WheelBuf α → Nat → List α × WheelBuf α
  | b, 0 => ([], b)
  | b, fuel + 1 =>
    match WheelBufDrain.next b with
    | (some a, b') =>
      let p := drainRun b' fuel
      (a :: p.1, p.2)
    | (none, b') => ([], b')

/-- Drain until `next` returns `none`: `len` yielding calls followed by
the end-of-sequence call that resets the indices. -/
def drainToEnd (b : WheelBuf α) : List α × WheelBuf α :=
  drainRun b (b.len + 1)

/-- Run the forward iterator from cursor `cur`, collecting the yielded
elements, stopping at the first `none`. -/
def iterRun (b : WheelBuf α) : Nat → Nat → List α
  | _, 0 => []
  | cur, fuel + 1 =>
    match WheelBufIter.next b cur with
    | (some a, cur') => a :: iterRun b cur' fuel
    | (none, _) => []

/-- A fresh forward iteration run to exhaustion. -/
def iterAll (b : WheelBuf α) : List α :=
  iterRun b 0 (b.len + 1)

/-- The result (yielded value and final cursor) of calling
`WheelBufIter.next` exactly `n + 1` times from cursor `cur` and keeping
the last call's result. -/
def nextRepeat (b : WheelBuf α) : Nat → Nat → Option α × Nat
  | cur, 0 => WheelBufIter.next b cur
  | cur, n + 1 => nextRepeat b (WheelBufIter.next b cur).2 n

/-! ## Specification-side notions -/

/-- The logical contents of the buffer, oldest first: element `i` lives
at physical index `(tail + i) % capacity`, exactly the forward
iterator's indexing rule. -/
def contents (b : WheelBuf α) : List α :=
  (List.range b.len).filterMap fun i => b.data[(b.tail + i) % b.capacity]?

/-- The last `n` elements of a list (all of it when it is shorter). -/
def lastN (n : Nat) (l : List α) : List α :=
  l.drop (l.length - n)

/-- The buffer invariant: `len` at most capacity, `head` and `tail` in
range (forcing a positive capacity), and `head = (tail + len) % capacity`
— stated for `len < capacity`, with `head = tail` in the full case. -/
def Inv (b : WheelBuf α) : Prop :=
  b.len ≤ b.capacity ∧ b.head < b.capacity ∧ b.tail < b.capacity ∧
    (b.len < b.capacity → b.head = (b.tail + b.len) % b.capacity) ∧
    (b.len = b.capacity → b.head = b.tail)

instance (b : WheelBuf α) : Decidable (Inv b) := by
  unfold Inv
  infer_instance

/-- States reachable from construction by pushes (that do not panic)
and drain-iterator steps.  Forward-iterator operations never mutate the
buffer, so they add no states. -/
inductive Reachable : WheelBuf α → Prop
  | new (data : List α) : Reachable (WheelBuf.new data)
  | push (b b' : WheelBuf α) (a : α) :
      Reachable b → b.push a = some b' → Reachable b'
  | drain (b b' : WheelBuf α) (r : Option α) :
      Reachable b → WheelBufDrain.next b = (r, b') → Reachable b'

/-! ## Basic lemmas about `push` -/

theorem push_eq (b : WheelBuf α) (a : α) (h : b.head < b.capacity) :
    b.push a = some
      { data := b.data.set b.head a
        head := (b.head + 1) % b.capacity
        tail := if b.tail = b.head ∧ 0 < b.len then (b.tail + 1) % b.capacity else b.tail
        len := if b.len < b.capacity then b.len + 1 else b.len } := by
  simp [WheelBuf.push, h]

theorem push_eq_none (b : WheelBuf α) (a : α) (h : ¬ b.head < b.capacity) :
    b.push a = none := by
  simp [WheelBuf.push, h]

theorem capacity_push (b b' : WheelBuf α) (a : α) (h : b.push a = some b') :
    b'.capacity = b.capacity := by
  unfold WheelBuf.push at h
  split at h
  · cases h
    simp [WheelBuf.capacity]
  · cases h

theorem capacity_drain (b b' : WheelBuf α) (r : Option α)
    (h : WheelBufDrain.next b = (r, b')) : b'.capacity = b.capacity := by
  unfold WheelBufDrain.next at h
  split at h <;> cases h <;> rfl

theorem data_drain (b b' : WheelBuf α) (r : Option α)
    (h : WheelBufDrain.next b = (r, b')) : b'.data = b.data := by
  unfold WheelBufDrain.next at h
  split at h <;> cases h <;> rfl

/-! ## The invariant is established and preserved -/

/-- If `(t + l) % N = t` with `t, l < N`, then `l = 0`. -/
theorem mod_cancel_of_lt {t l N : Nat} (ht : t < N) (hl : l < N)
    (h : (t + l) % N = t) : l = 0 := by
  rcases Nat.lt_or_ge (t + l) N with hc | hc
  · rw [Nat.mod_eq_of_lt hc] at h
    omega
  · rw [Nat.mod_eq_sub_mod hc, Nat.mod_eq_of_lt (by omega)] at h
    omega

/-- The invariant of a buffer given by explicit fields. -/
theorem inv_mk (d : List α) (hd tl ln : Nat) :
    Inv (WheelBuf.mk d hd tl ln) ↔
      (ln ≤ d.length ∧ hd < d.length ∧ tl < d.length ∧
        (ln < d.length → hd = (tl + ln) % d.length) ∧
        (ln = d.length → hd = tl)) :=
  Iff.rfl

theorem inv_new (data : List α) (h : 0 < data.length) : Inv (WheelBuf.new data) := by
  show Inv (WheelBuf.mk data 0 0 0)
  rw [inv_mk]
  exact ⟨Nat.zero_le _, h, h, fun _ => by simp, fun _ => rfl⟩

theorem push_inv (b b' : WheelBuf α) (a : α) (hb : Inv b) (h : b.push a = some b') :
    Inv b' := by
  obtain ⟨h1, h2, h3, h4, h5⟩ := hb
  rw [push_eq b a h2] at h
  simp only [Option.some.injEq] at h
  subst h
  have hN : 0 < b.capacity := Nat.lt_of_le_of_lt (Nat.zero_le _) h2
  have hdl : b.data.length = b.capacity := rfl
  rw [inv_mk, List.length_set, hdl]
  rcases Nat.lt_or_ge b.len b.capacity with hfull | hfull
  · -- not yet full: `tail = head ∧ 0 < len` is impossible
    have hcond : ¬ (b.tail = b.head ∧ 0 < b.len) := by
      rintro ⟨hth, hlen⟩
      have h4' := h4 hfull
      rw [← hth] at h4'
      have := mod_cancel_of_lt h3 hfull h4'.symm
      omega
    rw [if_neg hcond, if_pos hfull]
    refine ⟨by omega, Nat.mod_lt _ hN, h3, ?_, ?_⟩
    · intro _
      rw [h4 hfull, Nat.mod_add_mod, Nat.add_assoc]
    · intro heq
      rw [h4 hfull, Nat.mod_add_mod, Nat.add_assoc, heq, Nat.add_mod_right,
        Nat.mod_eq_of_lt h3]
  · -- full: `len = capacity`, `tail = head`
    have hlen : b.len = b.capacity := Nat.le_antisymm h1 hfull
    have hth : b.head = b.tail := h5 hlen
    have hcond : b.tail = b.head ∧ 0 < b.len := ⟨hth.symm, by omega⟩
    rw [if_pos hcond, if_neg (Nat.not_lt.mpr hfull)]
    refine ⟨by omega, Nat.mod_lt _ hN, Nat.mod_lt _ hN,
      fun hlt => absurd hlt (by omega), fun _ => ?_⟩
    rw [hth]

theorem drain_inv (b b' : WheelBuf α) (r : Option α) (hb : Inv b)
    (h : WheelBufDrain.next b = (r, b')) : Inv b' := by
  obtain ⟨h1, h2, h3, h4, h5⟩ := hb
  have hN : 0 < b.capacity := Nat.lt_of_le_of_lt (Nat.zero_le _) h2
  have hdl : b.data.length = b.capacity := rfl
  unfold WheelBufDrain.next at h
  split at h
  case isTrue hlen =>
    injection h with hr hb'
    subst hb'
    rw [inv_mk, hdl]
    refine ⟨by omega, h2, Nat.mod_lt _ hN, ?_, fun hc => absurd hc (by omega)⟩
    intro _
    rw [Nat.mod_add_mod]
    have harr : b.tail + 1 + (b.len - 1) = b.tail + b.len := by omega
    rw [harr]
    rcases Nat.lt_or_ge b.len b.capacity with hlt | hge
    · exact h4 hlt
    · have hlen' : b.len = b.capacity := Nat.le_antisymm h1 hge
      rw [hlen', Nat.add_mod_right, Nat.mod_eq_of_lt h3]
      exact h5 hlen'
  case isFalse hlen =>
    injection h with hr hb'
    subst hb'
    rw [inv_mk, hdl]
    have hl0 : b.len = 0 := by omega
    exact ⟨by omega, hN, hN, fun _ => by simp [hl0], fun _ => rfl⟩

theorem inv_of_reachable (b : WheelBuf α) (h : Reachable b) (hc : 0 < b.capacity) :
    Inv b := by
  induction h with
  | new data => exact inv_new data hc
  | push b b' a _ hp ih =>
    have hcb : 0 < b.capacity := by rw [← capacity_push b b' a hp]; exact hc
    exact push_inv b b' a (ih hcb) hp
  | drain b b' r _ hd ih =>
    have hcb : 0 < b.capacity := by rw [← capacity_drain b b' r hd]; exact hc
    exact drain_inv b b' r (ih hcb) hd

/-! ## Lemmas about `contents` -/

theorem length_filterMap_of_isSome {β γ : Type} {f : β → Option γ} (l : List β)
    (h : ∀ i ∈ l, (f i).isSome) : (l.filterMap f).length = l.length := by
  induction l with
  | nil => rfl
  | cons a t ih =>
    obtain ⟨x, hx⟩ := Option.isSome_iff_exists.mp (h a (List.mem_cons_self a t))
    simp only [List.filterMap_cons, hx, List.length_cons]
    rw [ih fun i hi => h i (List.mem_cons_of_mem a hi)]

theorem getElem?_filterMap_of_isSome {β γ : Type} {f : β → Option γ} (l : List β)
    (h : ∀ i ∈ l, (f i).isSome) (j : Nat) :
    (l.filterMap f)[j]? = l[j]?.bind f := by
  induction l generalizing j with
  | nil => simp
  | cons a t ih =>
    obtain ⟨x, hx⟩ := Option.isSome_iff_exists.mp (h a (List.mem_cons_self a t))
    cases j with
    | zero => simp [List.filterMap_cons, hx]
    | succ j =>
      simp only [List.filterMap_cons, hx, List.getElem?_cons_succ]
      exact ih (fun i hi => h i (List.mem_cons_of_mem a hi)) j

/-- If `(t + i) % N = (t + j) % N` with `i, j < N`, then `i = j`. -/
theorem mod_shift_inj {t i j N : Nat} (hi : i < N) (hj : j < N)
    (h : (t + i) % N = (t + j) % N) : i = j := by
  have hm : i ≡ j [MOD N] := Nat.ModEq.add_left_cancel (Nat.ModEq.refl t) h
  unfold Nat.ModEq at hm
  rw [Nat.mod_eq_of_lt hi, Nat.mod_eq_of_lt hj] at hm
  exact hm

theorem contents_isSome (b : WheelBuf α) (hb : Inv b) :
    ∀ i ∈ List.range b.len, (b.data[(b.tail + i) % b.capacity]?).isSome := by
  obtain ⟨h1, h2, h3, h4, h5⟩ := hb
  intro i _
  have hN : 0 < b.capacity := by omega
  have hlt : (b.tail + i) % b.capacity < b.data.length := Nat.mod_lt _ hN
  rw [List.getElem?_eq_getElem hlt]
  rfl

theorem contents_length (b : WheelBuf α) (hb : Inv b) :
    (contents b).length = b.len := by
  unfold contents
  rw [length_filterMap_of_isSome _ (contents_isSome b hb), List.length_range]

theorem contents_getElem (b : WheelBuf α) (hb : Inv b) (j : Nat) (hj : j < b.len) :
    (contents b)[j]? = b.data[(b.tail + j) % b.capacity]? := by
  unfold contents
  rw [getElem?_filterMap_of_isSome _ (contents_isSome b hb)]
  have : (List.range b.len)[j]? = some j := by
    simp [List.getElem?_range, hj]
  rw [this]
  rfl

theorem contents_new (data : List α) : contents (WheelBuf.new data) = [] := by
  unfold contents WheelBuf.new
  simp

/-! ## Lemmas about the drain step -/

theorem drain_next_pos (b : WheelBuf α) (hl : 0 < b.len) :
    WheelBufDrain.next b = (b.data[b.tail]?,
      { b with tail := (b.tail + 1) % b.data.length, len := b.len - 1 }) := by
  simp [WheelBufDrain.next, hl]

theorem drain_next_zero (b : WheelBuf α) (hl : b.len = 0) :
    WheelBufDrain.next b = (none, { b with head := 0, tail := 0 }) := by
  simp [WheelBufDrain.next, hl]

/-- Under the invariant, a non-empty buffer's contents are the element
at `tail` followed by the contents of the buffer after one drain step. -/
theorem contents_cons (b : WheelBuf α) (hb : Inv b) (hl : 0 < b.len) :
    ∃ e, b.data[b.tail]? = some e ∧
      contents b =
        e :: contents { b with tail := (b.tail + 1) % b.data.length, len := b.len - 1 } := by
  obtain ⟨h1, h2, h3, h4, h5⟩ := hb
  have hN : 0 < b.capacity := by omega
  have hdl : b.data.length = b.capacity := rfl
  obtain ⟨e, he⟩ : ∃ e, b.data[b.tail]? = some e :=
    ⟨b.data.get ⟨b.tail, h3⟩, List.getElem?_eq_getElem h3⟩
  refine ⟨e, he, ?_⟩
  obtain ⟨L, hL⟩ : ∃ L, b.len = L + 1 := ⟨b.len - 1, by omega⟩
  show (List.range b.len).filterMap (fun i => b.data[(b.tail + i) % b.capacity]?) =
    e :: (List.range (b.len - 1)).filterMap
      (fun i => b.data[((b.tail + 1) % b.data.length + i) % b.capacity]?)
  rw [hL, List.range_succ_eq_map]
  have hf0 : b.data[(b.tail + 0) % b.capacity]? = some e := by
    rw [Nat.add_zero, Nat.mod_eq_of_lt h3]
    exact he
  simp only [List.filterMap_cons, hf0, Nat.add_sub_cancel, List.filterMap_map]
  congr 1
  apply List.filterMap_congr
  intro i _
  show b.data[(b.tail + Nat.succ i) % b.capacity]? =
    b.data[((b.tail + 1) % b.data.length + i) % b.capacity]?
  rw [hdl, Nat.mod_add_mod]
  congr 2
  omega


/-! ## `lastN` lemmas and the effect of `push` on `contents` -/

theorem lastN_of_le {l : List α} {n : Nat} (h : l.length ≤ n) : lastN n l = l := by
  unfold lastN
  rw [Nat.sub_eq_zero_of_le h, List.drop_zero]

theorem lastN_append_lastN (n : Nat) (l l' : List α) :
    lastN n (lastN n l ++ l') = lastN n (l ++ l') := by
  induction l with
  | nil => simp [lastN]
  | cons a t ih =>
    rcases le_or_lt (a :: t).length n with h | h
    · rw [lastN_of_le h]
    · have ht : n ≤ t.length := by
        simp only [List.length_cons] at h
        omega
      have hh1 : lastN n (a :: t) = lastN n t := by
        unfold lastN
        have he : (a :: t).length - n = (t.length - n) + 1 := by
          simp only [List.length_cons]
          omega
        rw [he, List.drop_succ_cons]
      have hh2 : lastN n ((a :: t) ++ l') = lastN n (t ++ l') := by
        unfold lastN
        have he : (a :: (t ++ l')).length - n = ((t ++ l').length - n) + 1 := by
          simp only [List.length_append, List.length_cons]
          omega
        rw [List.cons_append, he, List.drop_succ_cons]
      rw [hh1, hh2, ih]

theorem not_full_cond (b : WheelBuf α) (hb : Inv b) (hfull : b.len < b.capacity) :
    ¬ (b.tail = b.head ∧ 0 < b.len) := by
  obtain ⟨h1, h2, h3, h4, h5⟩ := hb
  rintro ⟨hth, hlen⟩
  have h4' := h4 hfull
  rw [← hth] at h4'
  have := mod_cancel_of_lt h3 hfull h4'.symm
  omega

/-- Pushing transforms the logical contents into the last `capacity`
elements of `contents ++ [a]`: an append while there is room, an
append-and-evict-oldest when full. -/
theorem contents_push (b b' : WheelBuf α) (a : α) (hb : Inv b) (h : b.push a = some b') :
    contents b' = lastN b.capacity (contents b ++ [a]) := by
  have hclen := contents_length b hb
  have h1 := hb.1
  have h2 := hb.2.1
  have h3 := hb.2.2.1
  have h4 := hb.2.2.2.1
  have h5 := hb.2.2.2.2
  have hN : 0 < b.capacity := by omega
  have hdl : b.data.length = b.capacity := rfl
  rw [push_eq b a h2] at h
  simp only [Option.some.injEq] at h
  subst h
  rcases Nat.lt_or_ge b.len b.capacity with hfull | hfull
  case inl =>
    have hcond : ¬ (b.tail = b.head ∧ 0 < b.len) := not_full_cond b hb hfull
    have hRHS : lastN b.capacity (contents b ++ [a]) = contents b ++ [a] := by
      apply lastN_of_le
      rw [List.length_append, hclen]
      simp only [List.length_singleton]
      omega
    rw [hRHS]
    unfold contents WheelBuf.capacity
    simp only [List.length_set]
    rw [hdl, if_neg hcond, if_pos hfull, List.range_succ, List.filterMap_append]
    have hpart1 :
        List.filterMap (fun i => (b.data.set b.head a)[(b.tail + i) % b.capacity]?)
          (List.range b.len)
        = List.filterMap (fun i => b.data[(b.tail + i) % b.capacity]?)
          (List.range b.len) := by
      apply List.filterMap_congr
      intro i hi
      have hi' : i < b.len := List.mem_range.mp hi
      have hne : b.head ≠ (b.tail + i) % b.capacity := by
        rw [h4 hfull]
        intro hcontra
        have := mod_shift_inj (N := b.capacity) hfull (by omega) hcontra
        omega
      exact List.getElem?_set_ne hne
    have hpart2 :
        List.filterMap (fun i => (b.data.set b.head a)[(b.tail + i) % b.capacity]?)
          [b.len] = [a] := by
      have hidx : (b.tail + b.len) % b.capacity = b.head := (h4 hfull).symm
      have hset : (b.data.set b.head a)[b.head]? = some a :=
        List.getElem?_set_self h2
      simp [List.filterMap_cons, hidx, hset]
    rw [hpart1, hpart2]
  case inr =>
    have hlen : b.len = b.capacity := Nat.le_antisymm h1 hfull
    have hth : b.head = b.tail := h5 hlen
    have hcond : b.tail = b.head ∧ 0 < b.len := ⟨hth.symm, by omega⟩
    obtain ⟨e, he, hcc⟩ := contents_cons b hb (by omega)
    have hRHS : lastN b.capacity (contents b ++ [a]) = (contents b).drop 1 ++ [a] := by
      unfold lastN
      rw [List.length_append, hclen, hlen]
      have hle : b.capacity + [a].length - b.capacity = 1 := by simp
      rw [hle, List.drop_append_eq_append_drop, hclen, hlen]
      have h10 : 1 - b.capacity = 0 := by omega
      rw [h10, List.drop_zero]
    rw [hRHS, hcc]
    simp only [List.drop_succ_cons, List.drop_zero]
    unfold contents WheelBuf.capacity
    simp only [List.length_set]
    rw [hdl, if_pos hcond, if_neg (Nat.not_lt.mpr hfull)]
    obtain ⟨L, hL⟩ : ∃ L, b.len = L + 1 := ⟨b.len - 1, by omega⟩
    rw [hL]
    simp only [Nat.add_sub_cancel]
    rw [List.range_succ, List.filterMap_append]
    have hLcap : L + 1 = b.capacity := by omega
    have hpart1 :
        List.filterMap
          (fun i => (b.data.set b.head a)[((b.tail + 1) % b.capacity + i) % b.capacity]?)
          (List.range L)
        = List.filterMap (fun i => b.data[((b.tail + 1) % b.capacity + i) % b.capacity]?)
          (List.range L) := by
      apply List.filterMap_congr
      intro i hi
      have hi' : i < L := List.mem_range.mp hi
      have hne : b.head ≠ ((b.tail + 1) % b.capacity + i) % b.capacity := by
        rw [hth]
        intro hcontra
        rw [Nat.mod_add_mod] at hcontra
        have hrw : b.tail + 1 + i = b.tail + (1 + i) := by omega
        rw [hrw] at hcontra
        have := mod_cancel_of_lt h3 (by omega) hcontra.symm
        omega
      exact List.getElem?_set_ne hne
    have hpart2 :
        List.filterMap
          (fun i => (b.data.set b.head a)[((b.tail + 1) % b.capacity + i) % b.capacity]?)
          [L] = [a] := by
      have hidx : (b.tail + 1 + L) % b.capacity = b.head := by
        have hrw : b.tail + 1 + L = b.tail + b.capacity := by omega
        rw [hrw, Nat.add_mod_right, Nat.mod_eq_of_lt h3, hth]
      have hset : (b.data.set b.head a)[b.head]? = some a :=
        List.getElem?_set_self h2
      simp [List.filterMap_cons, Nat.mod_add_mod, hidx, hset]
    rw [hpart1, hpart2]


/-! ## Drain runs -/

theorem drainRun_succ_pos (b : WheelBuf α) (k : Nat) (e : α) (b1 : WheelBuf α)
    (h : WheelBufDrain.next b = (some e, b1)) :
    drainRun b (k + 1) = (e :: (drainRun b1 k).1, (drainRun b1 k).2) := by
  conv_lhs => rw [drainRun]
  rw [h]

theorem drainRun_succ_none (b : WheelBuf α) (k : Nat) (b1 : WheelBuf α)
    (h : WheelBufDrain.next b = (none, b1)) :
    drainRun b (k + 1) = ([], b1) := by
  conv_lhs => rw [drainRun]
  rw [h]

/-- Calling the drain iterator `k ≤ len` times yields the `k` oldest
elements and advances `tail` by `k`, decrements `len` by `k`, leaves
`head` and the storage untouched, and preserves the invariant. -/
theorem drainRun_spec (k : Nat) :
    ∀ b : WheelBuf α, Inv b → k ≤ b.len →
      (drainRun b k).1 = (contents b).take k ∧
      Inv (drainRun b k).2 ∧
      (drainRun b k).2.data = b.data ∧
      (drainRun b k).2.head = b.head ∧
      (drainRun b k).2.tail = (b.tail + k) % b.capacity ∧
      (drainRun b k).2.len = b.len - k ∧
      contents (drainRun b k).2 = (contents b).drop k := by
  induction k with
  | zero =>
    intro b hb _
    refine ⟨rfl, hb, rfl, rfl, ?_, rfl, rfl⟩
    show b.tail = (b.tail + 0) % b.capacity
    rw [Nat.add_zero, Nat.mod_eq_of_lt hb.2.2.1]
  | succ k ih =>
    intro b hb hk
    obtain ⟨e, he, hcc⟩ := contents_cons b hb (by omega)
    have hnext := drain_next_pos b (by omega)
    rw [he] at hnext
    have hrun := drainRun_succ_pos b k e _ hnext
    have hb1 : Inv { b with tail := (b.tail + 1) % b.data.length, len := b.len - 1 } :=
      drain_inv b _ (some e) hb hnext
    have hlen1 : ({ b with tail := (b.tail + 1) % b.data.length, len := b.len - 1 } :
        WheelBuf α).len = b.len - 1 := rfl
    obtain ⟨ih1, ih2, ih3, ih4, ih5, ih6, ih7⟩ :=
      ih { b with tail := (b.tail + 1) % b.data.length, len := b.len - 1 } hb1 (by omega)
    rw [hrun]
    refine ⟨?_, ih2, ih3, ih4, ?_, ?_, ?_⟩
    · rw [ih1, hcc, List.take_succ_cons]
    · rw [ih5]
      show ((b.tail + 1) % b.capacity + k) % b.capacity = (b.tail + (k + 1)) % b.capacity
      rw [Nat.mod_add_mod]
      congr 1
      omega
    · rw [ih6, hlen1]
      omega
    · rw [ih7, hcc, List.drop_succ_cons]

/-- Draining to exhaustion (the `len` yielding calls plus the final
end-of-sequence call) yields the whole contents and leaves the buffer
in the canonical empty state with its storage unchanged. -/
theorem drainRun_toEnd (L : Nat) :
    ∀ b : WheelBuf α, Inv b → b.len = L →
      drainRun b (L + 1) = (contents b, WheelBuf.mk b.data 0 0 0) := by
  induction L with
  | zero =>
    intro b hb hL
    rw [drainRun_succ_none b 0 _ (drain_next_zero b hL)]
    have hc : contents b = [] := by
      unfold contents
      rw [hL]
      simp
    rw [hc, hL]
  | succ L ih =>
    intro b hb hL
    obtain ⟨e, he, hcc⟩ := contents_cons b hb (by omega)
    have hnext := drain_next_pos b (by omega)
    rw [he] at hnext
    rw [drainRun_succ_pos b (L + 1) e _ hnext]
    have hb1 : Inv { b with tail := (b.tail + 1) % b.data.length, len := b.len - 1 } :=
      drain_inv b _ (some e) hb hnext
    have hL1 : ({ b with tail := (b.tail + 1) % b.data.length, len := b.len - 1 } :
        WheelBuf α).len = L := by
      show b.len - 1 = L
      omega
    rw [ih _ hb1 hL1, hcc]

theorem drainToEnd_spec (b : WheelBuf α) (hb : Inv b) :
    drainToEnd b = (contents b, WheelBuf.mk b.data 0 0 0) :=
  drainRun_toEnd b.len b hb rfl

/-! ## Iterator runs -/

theorem iterRun_spec (fuel : Nat) :
    ∀ (b : WheelBuf α) (cur : Nat), Inv b → b.len - cur < fuel →
      iterRun b cur fuel = (contents b).drop cur := by
  induction fuel with
  | zero =>
    intro b cur _ h
    omega
  | succ fuel ih =>
    intro b cur hb h
    rcases Nat.lt_or_ge cur b.len with hcur | hcur
    · have hN : 0 < b.capacity := by
        have := hb.2.1
        omega
      obtain ⟨x, hx⟩ : ∃ x, b.data[(b.tail + cur) % b.capacity]? = some x := by
        have hlt : (b.tail + cur) % b.capacity < b.data.length := Nat.mod_lt _ hN
        exact ⟨b.data.get ⟨_, hlt⟩, List.getElem?_eq_getElem hlt⟩
      have hnext : WheelBufIter.next b cur = (some x, cur + 1) := by
        unfold WheelBufIter.next
        rw [if_neg (by omega), hx]
      have hstep : iterRun b cur (fuel + 1) = x :: iterRun b (cur + 1) fuel := by
        conv_lhs => rw [iterRun]
        rw [hnext]
      have hcl : cur < (contents b).length := by
        rw [contents_length b hb]
        exact hcur
      have hget : (contents b).get ⟨cur, hcl⟩ = x := by
        have h1 : (contents b)[cur]? = some ((contents b).get ⟨cur, hcl⟩) :=
          List.getElem?_eq_getElem hcl
        have h2 : (contents b)[cur]? = some x := by
          rw [contents_getElem b hb cur hcur]
          exact hx
        rw [h1] at h2
        exact (Option.some.injEq _ _).mp h2
      rw [hstep, ih b (cur + 1) hb (by omega), List.drop_eq_getElem_cons hcl]
      rw [← hget]
      rfl
    · have hnext : WheelBufIter.next b cur = (none, cur) := by
        unfold WheelBufIter.next
        rw [if_pos (by omega)]
      have hstep : iterRun b cur (fuel + 1) = [] := by
        conv_lhs => rw [iterRun]
        rw [hnext]
      rw [hstep]
      symm
      apply List.drop_eq_nil_of_le
      rw [contents_length b hb]
      exact hcur

/-- A fresh forward iteration yields exactly the logical contents. -/
theorem iterAll_eq_contents (b : WheelBuf α) (hb : Inv b) :
    iterAll b = contents b := by
  unfold iterAll
  rw [iterRun_spec (b.len + 1) b 0 hb (by omega), List.drop_zero]

/-! ## Pushing a sequence -/

theorem pushAll_spec (xs : List α) :
    ∀ b : WheelBuf α, Inv b →
      ∃ b', pushAll b xs = some b' ∧ Inv b' ∧ b'.capacity = b.capacity ∧
        b'.len = min (b.len + xs.length) b.capacity ∧
        contents b' = lastN b.capacity (contents b ++ xs) := by
  induction xs with
  | nil =>
    intro b hb
    refine ⟨b, rfl, hb, rfl, ?_, ?_⟩
    · have := hb.1
      simp only [List.length_nil]
      omega
    · rw [List.append_nil]
      symm
      apply lastN_of_le
      rw [contents_length b hb]
      exact hb.1
  | cons a xs ih =>
    intro b hb
    have h2 := hb.2.1
    obtain ⟨b1, hpush⟩ : ∃ b1, b.push a = some b1 := ⟨_, push_eq b a h2⟩
    have hb1 : Inv b1 := push_inv b b1 a hb hpush
    have hcap1 : b1.capacity = b.capacity := capacity_push b b1 a hpush
    have hlen1 : b1.len = if b.len < b.capacity then b.len + 1 else b.len := by
      rw [push_eq b a h2] at hpush
      simp only [Option.some.injEq] at hpush
      rw [← hpush]
    have hcont1 : contents b1 = lastN b.capacity (contents b ++ [a]) :=
      contents_push b b1 a hb hpush
    obtain ⟨b', hp, hinv, hcap, hlen, hcont⟩ := ih b1 hb1
    refine ⟨b', ?_, hinv, by rw [hcap, hcap1], ?_, ?_⟩
    · show pushAll b (a :: xs) = some b'
      unfold pushAll
      rw [hpush]
      exact hp
    · rw [hlen, hcap1, hlen1]
      have hle := hb.1
      rcases Nat.lt_or_ge b.len b.capacity with hlt | hge
      · rw [if_pos hlt]
        simp only [List.length_cons]
        omega
      · rw [if_neg (by omega)]
        simp only [List.length_cons]
        omega
    · rw [hcont, hcap1, hcont1, lastN_append_lastN, List.append_assoc, List.singleton_append]


/-! ## The forward iterator: `nth` vs repeated `next` -/

/-- Closed form of the last result of `n + 1` single steps: the element
at logical position `cur + n` when it exists, `none` otherwise. -/
theorem nextRepeat_fst (n : Nat) :
    ∀ (b : WheelBuf α) (cur : Nat),
      (nextRepeat b cur n).1 =
        if cur + n < b.len then b.data[(b.tail + (cur + n)) % b.capacity]? else none := by
  induction n with
  | zero =>
    intro b cur
    show (WheelBufIter.next b cur).1 = _
    unfold WheelBufIter.next
    rcases Nat.lt_or_ge cur b.len with hc | hc
    · rw [if_neg (by omega), if_pos (by omega)]
      show b.data[(b.tail + cur) % b.capacity]? = _
      rw [Nat.add_zero]
    · rw [if_pos (by omega), if_neg (by omega)]
  | succ n ih =>
    intro b cur
    show (nextRepeat b (WheelBufIter.next b cur).2 n).1 = _
    rcases Nat.lt_or_ge cur b.len with hc | hc
    · have h2 : (WheelBufIter.next b cur).2 = cur + 1 := by
        unfold WheelBufIter.next
        rw [if_neg (by omega)]
      rw [h2, ih b (cur + 1)]
      have harith : cur + 1 + n = cur + (n + 1) := by omega
      rw [harith]
    · have h2 : (WheelBufIter.next b cur).2 = cur := by
        unfold WheelBufIter.next
        rw [if_pos (by omega)]
      rw [h2, ih b cur]
      rw [if_neg (by omega), if_neg (by omega)]

/-! ## `write_str` in terms of the push sequence -/

theorem writeStr_eq_pushAll (s : List Char) :
    ∀ b : WheelBuf Char,
      writeStr b s = (pushAll b s).map fun b2 => (Except.ok (), b2) := by
  induction s with
  | nil =>
    intro b
    rfl
  | cons c cs ih =>
    intro b
    cases hp : b.push c with
    | some b1 =>
      have hw : writeStr b (c :: cs) = writeStr b1 cs := by
        conv_lhs => rw [writeStr]
        rw [hp]
      have hpa : pushAll b (c :: cs) = pushAll b1 cs := by
        conv_lhs => rw [pushAll]
        rw [hp]
      rw [hw, hpa, ih b1]
    | none =>
      have hw : writeStr b (c :: cs) = none := by
        conv_lhs => rw [writeStr]
        rw [hp]
      have hpa : pushAll b (c :: cs) = none := by
        conv_lhs => rw [pushAll]
        rw [hp]
      rw [hw, hpa]
      rfl


/-! ## The claims -/

/-- Claim C1: for every valid buffer state with capacity at least 1 (the
insert position in range and the occupancy at most the capacity),
`push item` writes `item` into `storage[head]`; `tail` advances by one
modulo `N` exactly when the buffer was full (`len > 0` and
`tail = head`), so in particular it does not move on an empty buffer;
`head` advances by one modulo `N`; and `len` increments by one unless
it already equals `N`, in which case it stays `N`. -/
theorem claim_C1 (b : WheelBuf α) (item : α)
    (hhead : b.head < b.capacity) (hlen : b.len ≤ b.capacity) :
    ∃ b', b.push item = some b' ∧
      b'.data = b.data.set b.head item ∧
      b'.head = (b.head + 1) % b.capacity ∧
      b'.tail = (if b.tail = b.head ∧ 0 < b.len then (b.tail + 1) % b.capacity else b.tail) ∧
      b'.len = (if b.len = b.capacity then b.capacity else b.len + 1) := by
  refine ⟨_, push_eq b item hhead, rfl, rfl, rfl, ?_⟩
  show (if b.len < b.capacity then b.len + 1 else b.len) = _
  rcases Nat.lt_or_ge b.len b.capacity with hlt | hge
  · rw [if_pos hlt, if_neg (by omega)]
  · have h : b.len = b.capacity := Nat.le_antisymm hlen hge
    rw [if_neg (by omega), if_pos h, h]

theorem claim_C1_witness :
    ∃ b', (WheelBuf.mk [10, 20] 1 0 1).push 30 = some b' ∧
      b'.data = [10, 30] ∧ b'.head = 0 ∧ b'.tail = 0 ∧ b'.len = 2 := by
  obtain ⟨b', h1, h2, h3, h4, h5⟩ :=
    claim_C1 (WheelBuf.mk [10, 20] 1 0 1) 30 (by decide) (by decide)
  exact ⟨b', h1, by rw [h2]; decide, by rw [h3]; decide, by rw [h4]; decide, by rw [h5]; decide⟩

/-- Claim C2: every state reachable from construction by pushes, drain steps
and (buffer-preserving) iterator operations, on a buffer of positive
capacity, satisfies `0 ≤ len ≤ N`, `head, tail ∈ [0, N)`,
`head = (tail + len) % N` when `len < N`, and `head = tail` when
`len = N`. -/
theorem claim_C2 (b : WheelBuf α) (hr : Reachable b) (hc : 0 < b.capacity) :
    b.len ≤ b.capacity ∧ b.head < b.capacity ∧ b.tail < b.capacity ∧
      (b.len < b.capacity → b.head = (b.tail + b.len) % b.capacity) ∧
      (b.len = b.capacity → b.head = b.tail) :=
  inv_of_reachable b hr hc

theorem claim_C2_witness :
    (1 : Nat) ≤ 2 ∧ (1 : Nat) < 2 ∧ (0 : Nat) < 2 ∧
      ((1 : Nat) < 2 → 1 = (0 + 1) % 2) ∧ ((1 : Nat) = 2 → 1 = 0) :=
  claim_C2 (WheelBuf.mk [5, 0] 1 0 1)
    (Reachable.push _ _ 5 (Reachable.new [0, 0]) (by decide)) (by decide)

/-- Claim C3: from every reachable state of a buffer with positive capacity,
draining until the end-of-sequence call yields the same sequence as a
fresh forward iteration would have, and leaves `len = 0`, `head = 0`,
`tail = 0`. -/
theorem claim_C3 (b : WheelBuf α) (hr : Reachable b) (hc : 0 < b.capacity) :
    (drainToEnd b).1 = iterAll b ∧
    (drainToEnd b).2.len = 0 ∧ (drainToEnd b).2.head = 0 ∧ (drainToEnd b).2.tail = 0 := by
  have hb := inv_of_reachable b hr hc
  rw [drainToEnd_spec b hb]
  exact ⟨(iterAll_eq_contents b hb).symm, rfl, rfl, rfl⟩

theorem claim_C3_witness :
    (drainToEnd (WheelBuf.mk [5, 6] 0 0 2)).1 = iterAll (WheelBuf.mk [5, 6] 0 0 2) ∧
    (drainToEnd (WheelBuf.mk [5, 6] 0 0 2)).2.len = 0 ∧
    (drainToEnd (WheelBuf.mk [5, 6] 0 0 2)).2.head = 0 ∧
    (drainToEnd (WheelBuf.mk [5, 6] 0 0 2)).2.tail = 0 :=
  claim_C3 _
    (Reachable.push (WheelBuf.mk [5, 0] 1 0 1) _ 6
      (Reachable.push _ (WheelBuf.mk [5, 0] 1 0 1) 5 (Reachable.new [0, 0]) (by decide))
      (by decide))
    (by decide)

/-- Claim C4: pushing `k ≤ N` items into a freshly constructed buffer of
positive capacity `N` leaves `length = k`, and a forward iteration then
yields exactly those items in push order, oldest first. -/
theorem claim_C4 (data0 xs : List α) (h0 : 0 < data0.length)
    (hlen : xs.length ≤ data0.length) :
    ∃ b', pushAll (WheelBuf.new data0) xs = some b' ∧
      b'.len = xs.length ∧ iterAll b' = xs := by
  obtain ⟨b', hp, hinv, hcap, hl, hc⟩ :=
    pushAll_spec xs (WheelBuf.new data0) (inv_new data0 h0)
  refine ⟨b', hp, ?_, ?_⟩
  · rw [hl]
    show min (0 + xs.length) data0.length = xs.length
    omega
  · rw [iterAll_eq_contents b' hinv, hc, contents_new]
    show lastN data0.length ([] ++ xs) = xs
    rw [List.nil_append]
    exact lastN_of_le hlen

theorem claim_C4_witness :
    ∃ b', pushAll (WheelBuf.new [0, 0]) [4, 5] = some b' ∧
      b'.len = 2 ∧ iterAll b' = [4, 5] :=
  claim_C4 [0, 0] [4, 5] (by decide) (by decide)

/-- Claim C5: pushing `k > N` items into a freshly constructed buffer of
positive capacity `N` leaves `length = N`, and a forward iteration then
yields exactly the last `N` pushed items, oldest of those first. -/
theorem claim_C5 (data0 xs : List α) (h0 : 0 < data0.length)
    (hlen : data0.length < xs.length) :
    ∃ b', pushAll (WheelBuf.new data0) xs = some b' ∧
      b'.len = data0.length ∧ iterAll b' = xs.drop (xs.length - data0.length) := by
  obtain ⟨b', hp, hinv, hcap, hl, hc⟩ :=
    pushAll_spec xs (WheelBuf.new data0) (inv_new data0 h0)
  refine ⟨b', hp, ?_, ?_⟩
  · rw [hl]
    show min (0 + xs.length) data0.length = data0.length
    omega
  · rw [iterAll_eq_contents b' hinv, hc, contents_new]
    show lastN data0.length ([] ++ xs) = xs.drop (xs.length - data0.length)
    rw [List.nil_append]
    rfl

theorem claim_C5_witness :
    ∃ b', pushAll (WheelBuf.new [0, 0]) [4, 5, 6] = some b' ∧
      b'.len = 2 ∧ iterAll b' = [5, 6] :=
  claim_C5 [0, 0] [4, 5, 6] (by decide) (by decide)


/-- Claim C6: for every forward-iterator state (any buffer, any cursor) and
every `n`, `nth n` returns the same result — the same yielded element,
or end-of-sequence — as calling `next` `n + 1` times and keeping the
last result. -/
theorem claim_C6 (b : WheelBuf α) (cur n : Nat) :
    (WheelBufIter.nth b cur n).1 = (nextRepeat b cur n).1 := by
  rw [nextRepeat_fst n b cur]
  have hstep : ∀ c : Nat, (WheelBufIter.next b c).1 =
      if c < b.len then b.data[(b.tail + c) % b.capacity]? else none := by
    intro c
    unfold WheelBufIter.next
    rcases Nat.lt_or_ge c b.len with h | h
    · rw [if_neg (by omega), if_pos h]
    · rw [if_pos (by omega), if_neg (by omega)]
  show (WheelBufIter.next b (if 0 < n then cur + min n b.len else cur)).1 = _
  rw [hstep]
  rcases Nat.eq_zero_or_pos n with hn | hn
  · subst hn
    rw [show (if 0 < 0 then cur + min 0 b.len else cur) = cur from if_neg (by omega)]
    rw [Nat.add_zero]
  · rw [if_pos hn]
    rcases Nat.lt_or_ge (cur + n) b.len with hlt | hge
    · have hmin : cur + min n b.len = cur + n := by omega
      rw [hmin]
    · have hge1 : ¬ (cur + min n b.len < b.len) := by omega
      rw [if_neg hge1, if_neg (by omega)]

/-- Claim C7: from a reachable state with `len = L > 0` on a buffer of
positive capacity, `k < L` drain calls yield exactly the `k` oldest
elements, advance `tail` by `k` modulo `N`, set `len` to `L - k`,
leave `head` unchanged, and a subsequent forward iteration or drain
yields the remaining `L - k` elements in order. -/
theorem claim_C7 (b : WheelBuf α) (k : Nat) (hr : Reachable b) (hc : 0 < b.capacity)
    (hk : k < b.len) :
    (drainRun b k).1 = (contents b).take k ∧
    (drainRun b k).2.tail = (b.tail + k) % b.capacity ∧
    (drainRun b k).2.len = b.len - k ∧
    (drainRun b k).2.head = b.head ∧
    iterAll (drainRun b k).2 = (contents b).drop k ∧
    (drainToEnd (drainRun b k).2).1 = (contents b).drop k := by
  have hb := inv_of_reachable b hr hc
  obtain ⟨s1, s2, s3, s4, s5, s6, s7⟩ := drainRun_spec k b hb (by omega)
  refine ⟨s1, s5, s6, s4, ?_, ?_⟩
  · rw [iterAll_eq_contents _ s2, s7]
  · rw [drainToEnd_spec _ s2]
    exact s7

theorem claim_C7_witness :
    (drainRun (WheelBuf.mk [5, 6] 0 0 2) 1).1 = (contents (WheelBuf.mk [5, 6] 0 0 2)).take 1 ∧
    (drainRun (WheelBuf.mk [5, 6] 0 0 2) 1).2.tail = (0 + 1) % 2 ∧
    (drainRun (WheelBuf.mk [5, 6] 0 0 2) 1).2.len = 2 - 1 ∧
    (drainRun (WheelBuf.mk [5, 6] 0 0 2) 1).2.head = 0 ∧
    iterAll (drainRun (WheelBuf.mk [5, 6] 0 0 2) 1).2 =
      (contents (WheelBuf.mk [5, 6] 0 0 2)).drop 1 ∧
    (drainToEnd (drainRun (WheelBuf.mk [5, 6] 0 0 2) 1).2).1 =
      (contents (WheelBuf.mk [5, 6] 0 0 2)).drop 1 :=
  claim_C7 _ 1
    (Reachable.push (WheelBuf.mk [5, 0] 1 0 1) _ 6
      (Reachable.push _ (WheelBuf.mk [5, 0] 1 0 1) 5 (Reachable.new [0, 0]) (by decide))
      (by decide))
    (by decide) (by decide)

/-- Claim C8: on any reachable buffer of positive capacity, `push` never
panics (the slice write and both moduli are in range, so the model
returns `some`); on a zero-capacity buffer, `push` always panics (the
slice write `data[head]` is out of range — the model returns `none`). -/
theorem claim_C8 (b : WheelBuf α) (a : α) :
    (Reachable b → 0 < b.capacity → (b.push a).isSome) ∧
    (b.capacity = 0 → b.push a = none) := by
  constructor
  · intro hr hc
    have hb := inv_of_reachable b hr hc
    rw [push_eq b a hb.2.1]
    rfl
  · intro hc
    apply push_eq_none
    omega

theorem claim_C8_witness :
    ((WheelBuf.new [3]).push 5).isSome ∧ (WheelBuf.new ([] : List Nat)).push 5 = none :=
  ⟨(claim_C8 (WheelBuf.new [3]) 5).1 (Reachable.new [3]) (by decide),
   (claim_C8 (WheelBuf.new ([] : List Nat)) 5).2 (by decide)⟩

/-- Claim C9: on any reachable `char` buffer of positive capacity,
`write_str` pushes each character of the text in order (it performs
exactly the sequence of pushes `pushAll`) and returns `Ok(())`. -/
theorem claim_C9 (b : WheelBuf Char) (s : List Char) (hr : Reachable b)
    (hc : 0 < b.capacity) :
    ∃ b', pushAll b s = some b' ∧ writeStr b s = some (Except.ok (), b') := by
  have hb := inv_of_reachable b hr hc
  obtain ⟨b', hp, _, _, _, _⟩ := pushAll_spec s b hb
  refine ⟨b', hp, ?_⟩
  rw [writeStr_eq_pushAll s b, hp]
  rfl

theorem claim_C9_witness :
    ∃ b', pushAll (WheelBuf.new ['x']) ['h', 'i'] = some b' ∧
      writeStr (WheelBuf.new ['x']) ['h', 'i'] = some (Except.ok (), b') :=
  claim_C9 (WheelBuf.new ['x']) ['h', 'i'] (Reachable.new ['x']) (by decide)

/-- Claim C10: the reset of `head` and `tail` to 0 happens only in a drain
call made at `len = 0`: a drain call at `len > 0` yields an element and
leaves `head` untouched (`tail` merely advances circularly); draining
exactly the `len`-at-creation elements leaves `len = 0`, `head`
unchanged and `tail` equal to the pre-drain `head`; the next drain call
then returns end-of-sequence and resets `head` and `tail` to 0, and a
further call is idempotent. -/
theorem claim_C10 (b : WheelBuf α) (hr : Reachable b) (hc : 0 < b.capacity) :
    (0 < b.len →
      (WheelBufDrain.next b).1.isSome ∧
      (WheelBufDrain.next b).2.head = b.head ∧
      (WheelBufDrain.next b).2.tail = (b.tail + 1) % b.capacity) ∧
    (drainRun b b.len).1.length = b.len ∧
    (drainRun b b.len).2.len = 0 ∧
    (drainRun b b.len).2.head = b.head ∧
    (drainRun b b.len).2.tail = b.head ∧
    WheelBufDrain.next (drainRun b b.len).2 =
      (none, { (drainRun b b.len).2 with head := 0, tail := 0 }) ∧
    WheelBufDrain.next { (drainRun b b.len).2 with head := 0, tail := 0 } =
      (none, { (drainRun b b.len).2 with head := 0, tail := 0 }) := by
  have hb := inv_of_reachable b hr hc
  obtain ⟨s1, s2, s3, s4, s5, s6, s7⟩ := drainRun_spec b.len b hb (Nat.le_refl _)
  refine ⟨?_, ?_, by rw [s6]; omega, s4, ?_, ?_, ?_⟩
  · intro hl
    rw [drain_next_pos b hl]
    refine ⟨?_, rfl, rfl⟩
    have hlt : b.tail < b.data.length := hb.2.2.1
    rw [List.getElem?_eq_getElem hlt]
    rfl
  · rw [s1, List.length_take, contents_length b hb]
    omega
  · rw [s5]
    rcases Nat.lt_or_ge b.len b.capacity with hlt | hge
    · exact (hb.2.2.2.1 hlt).symm
    · have hleq : b.len = b.capacity := Nat.le_antisymm hb.1 hge
      rw [hleq, Nat.add_mod_right, Nat.mod_eq_of_lt hb.2.2.1]
      exact (hb.2.2.2.2 hleq).symm
  · exact drain_next_zero _ (by rw [s6]; omega)
  · have hz : ({ (drainRun b b.len).2 with head := 0, tail := 0 } : WheelBuf α).len = 0 := by
      show (drainRun b b.len).2.len = 0
      rw [s6]
      omega
    rw [drain_next_zero _ hz]

theorem claim_C10_witness :
    (0 < (WheelBuf.mk [5, 6] 0 0 2 : WheelBuf Nat).len →
      (WheelBufDrain.next (WheelBuf.mk [5, 6] 0 0 2)).1.isSome ∧
      (WheelBufDrain.next (WheelBuf.mk [5, 6] 0 0 2)).2.head = 0 ∧
      (WheelBufDrain.next (WheelBuf.mk [5, 6] 0 0 2)).2.tail = (0 + 1) % 2) ∧
    (drainRun (WheelBuf.mk [5, 6] 0 0 2) 2).1.length = 2 ∧
    (drainRun (WheelBuf.mk [5, 6] 0 0 2) 2).2.len = 0 ∧
    (drainRun (WheelBuf.mk [5, 6] 0 0 2) 2).2.head = 0 ∧
    (drainRun (WheelBuf.mk [5, 6] 0 0 2) 2).2.tail = 0 ∧
    WheelBufDrain.next (drainRun (WheelBuf.mk [5, 6] 0 0 2) 2).2 =
      (none, { (drainRun (WheelBuf.mk [5, 6] 0 0 2) 2).2 with head := 0, tail := 0 }) ∧
    WheelBufDrain.next
        { (drainRun (WheelBuf.mk [5, 6] 0 0 2) 2).2 with head := 0, tail := 0 } =
      (none, { (drainRun (WheelBuf.mk [5, 6] 0 0 2) 2).2 with head := 0, tail := 0 }) :=
  claim_C10 _
    (Reachable.push (WheelBuf.mk [5, 0] 1 0 1) _ 6
      (Reachable.push _ (WheelBuf.mk [5, 0] 1 0 1) 5 (Reachable.new [0, 0]) (by decide))
      (by decide))
    (by decide)

end Wheelbuf
